import Mathlib

/-!
Verification of the `sequence_storages` repository: a key-value abstraction
over FASTA sequence records with three backends (single file, directory,
tar archive), a pending-mutation layer (deleted / updated / LRU cache) and a
deferred commit protocol.

Python strings are modelled as `List Char`, files as their full character
content, ordered dicts as association lists in insertion order, sets as
duplicate-free lists.  Fallible code (Python exceptions) is modelled with
`Option` / `Except`.
-/

namespace SeqStorages

/-- Characters, as Python strings: a list of characters. -/
abbrev Str := List Char

/-- Whitespace characters recognised by Python str.strip(). -/
def isPySpace (c : Char) : Bool :=
  c = ' ' || c = '\t' || c = '\n' || c = '\r' || c = '\x0b' || c = '\x0c'

/-- Model of Python str.strip(): drop whitespace from both ends. -/
def pyStrip (s : Str) : Str :=
  ((s.dropWhile isPySpace).reverse.dropWhile isPySpace).reverse

/-- Tests whether a string starts with the record marker, Python s.startswith(">"). -/
def startsWithGt (s : Str) : Bool :=
  match s with
  | [] => false
  | c :: _ => c = '>'

/-- Model of Python s.removeprefix(">"): drop one leading marker when present. -/
def removeGtMarker (s : Str) : Str :=
  match s with
  | '>' :: rest => rest
  | s => s

/-- Model of utils.clean_header: raises ValueError (here: none) unless the raw
header line starts with the marker, else removes the marker and strips. -/
def clean_header (s : Str) : Option Str :=
  if startsWithGt s then some (pyStrip (removeGtMarker s)) else none

/-- Splits a character stream into the lines successive readline() calls
return: every line keeps its trailing newline, a last unterminated line is
kept as is, and end of input yields no further lines. -/
def splitLinesAux : List Char → List Char → List (List Char)
  | [], acc => if acc = [] then [] else [acc.reverse]
  | c :: cs, acc =>
      if c = '\n' then (acc.reverse ++ ['\n']) :: splitLinesAux cs []
      else splitLinesAux cs (c :: acc)

/-- Lines of a file content, as readline() would deliver them. -/
def splitLines (file : List Char) : List (List Char) :=
  splitLinesAux file []

/-! ## Association lists: Python dict / OrderedDict, in insertion order -/

/-- Value stored under a key, first matching entry. -/
def lookupA {α : Type} : List (Str × α) → Str → Option α
  | [], _ => none
  | (k', v) :: rest, k => if k = k' then some v else lookupA rest k

/-- Removes every entry with the given key (a dict holds it at most once). -/
def eraseKey {α : Type} : List (Str × α) → Str → List (Str × α)
  | [], _ => []
  | (k', v) :: rest, k =>
      if k = k' then eraseKey rest k else (k', v) :: eraseKey rest k

/-- Model of dict assignment d[k] = v: replace the value in place when the key
exists, append a fresh entry otherwise. -/
def odSet {α : Type} : List (Str × α) → Str → α → List (Str × α)
  | [], k, v => [(k, v)]
  | (k', v') :: rest, k, v =>
      if k = k' then (k', v) :: rest else (k', v') :: odSet rest k v

/-- Model of OrderedDict.move_to_end(key): the key moves to the back, keeping
its value; a missing key is left untouched (the code only calls this on
present keys). -/
def moveToEnd {α : Type} (l : List (Str × α)) (k : Str) : List (Str × α) :=
  match lookupA l k with
  | none => l
  | some v => eraseKey l k ++ [(k, v)]

/-- Model of set.add: append the element unless already present. -/
def addToSet (l : List Str) (k : Str) : List Str :=
  if k ∈ l then l else l ++ [k]

/-- Model of the guarded set.remove in __setitem__: drop the element. -/
def eraseFromSet (l : List Str) (k : Str) : List Str :=
  l.filter (fun x => decide (x ≠ k))

/-! ## Storage core: BaseSequenceStorage pending state and operations -/

/-- Pending in-memory state owned by every storage handle, from
BaseSequenceStorage.__init__: the LRU cache, the deleted set and the
insertion-ordered updated mapping. -/
structure PendingState where
  cacheSize : Option Nat
  cache : List (Str × Str)
  deleted : List Str
  updated : List (Str × Str)
deriving DecidableEq, Repr

/-- Pending state of a freshly constructed storage: everything empty. -/
def initPending (cacheSize : Option Nat) : PendingState :=
  { cacheSize := cacheSize, cache := [], deleted := [], updated := [] }

/-- Model of BaseSequenceStorage._get_headers_of_updated_items, the set
deleted | updated.keys(); only membership in it is ever used. -/
def headersOfUpdatedItems (st : PendingState) : List Str :=
  st.deleted ++ st.updated.map Prod.fst

/-- Model of BaseSequenceStorage._put_to_cache: insert, then pop the
least-recently-used entry when a truthy capacity is exceeded. -/
def putToCache (st : PendingState) (k : Str) (v : Str) : PendingState :=
  let c := odSet st.cache k v
  let c :=
    match st.cacheSize with
    | some (n + 1) => if c.length > n + 1 then c.drop 1 else c
    | _ => c
  { st with cache := c }

/-- Result of a __getitem__ call: the value (none models KeyError), the state
after the call, and whether _get_from_source was invoked. -/
structure GetResult where
  result : Option Str
  state : PendingState
  sourceRead : Bool
deriving DecidableEq, Repr

/-- Model of BaseSequenceStorage.__getitem__ over an abstract backend lookup
src (none models an absent key). -/
def getItem (src : Str → Option Str) (st : PendingState) (k : Str) : GetResult :=
  if k ∈ st.deleted then ⟨none, st, false⟩
  else
    match lookupA st.updated k with
    | some v => ⟨some v, st, false⟩
    | none =>
      match lookupA st.cache k with
      | some v => ⟨some v, { st with cache := moveToEnd st.cache k }, false⟩
      | none =>
        match src k with
        | none => ⟨none, st, true⟩
        | some v => ⟨some v, putToCache st k v, true⟩

/-- Model of BaseSequenceStorage.__setitem__: un-delete, evict from the cache,
store in updated and move it to the most recently inserted position. -/
def setItem (st : PendingState) (k : Str) (v : Str) : PendingState :=
  { st with
    deleted := eraseFromSet st.deleted k
    cache := eraseKey st.cache k
    updated := moveToEnd (odSet st.updated k v) k }

/-- Model of BaseSequenceStorage.__delitem__: drop from updated and cache,
mark deleted. -/
def delItem (st : PendingState) (k : Str) : PendingState :=
  { st with
    updated := eraseKey st.updated k
    cache := eraseKey st.cache k
    deleted := addToSet st.deleted k }

/-- Model of BaseSequenceStorage.__contains__ over an abstract backend
existence test. -/
def containsItem (cs : Str → Bool) (st : PendingState) (k : Str) : Bool :=
  if k ∈ st.deleted then false
  else if (lookupA st.updated k).isSome then true
  else if (lookupA st.cache k).isSome then true
  else cs k

/-! ## Record codec: utils.to_fasta and line wrapping -/

/-- Chunks of width w + 1 of a character list.  Together with `chunksOf` this
models Python textwrap.wrap on text without whitespace (the only way the
repository uses it for residue strings): a long word is broken at exactly the
column width.  The fuel argument is the list length, consumed one or more
characters per step. -/
def chunksOfAux (w : Nat) : Nat → List Char → List (List Char)
  | 0, _ => []
  | _, [] => []
  | fuel + 1, c :: rest => (c :: rest.take w) :: chunksOfAux w fuel (rest.drop w)

/-- Model of textwrap.wrap(s, width = w + 1) for whitespace-free s. -/
def chunksOf (w : Nat) (s : List Char) : List (List Char) :=
  chunksOfAux w s.length s

/-- Model of "\n".join(lines). -/
def joinLinesNL : List Str → Str
  | [] => []
  | [l] => l
  | l :: rest => l ++ '\n' :: joinLinesNL rest

/-- Model of utils.to_fasta: marker plus header line, then the sequence,
wrapped at the given column when the wrap option is truthy, and a trailing
newline. -/
def to_fasta (header seq : Str) (wrap : Option Nat) : Str :=
  let s :=
    match wrap with
    | some (w + 1) => joinLinesNL (chunksOf w seq)
    | _ => seq
  '>' :: (header ++ '\n' :: (s ++ ['\n']))

/-! ## Single-file backend: FastaStorage -/

/-- Sequence-line loop of fasta_storage._read_one_sequence: read lines,
strip each, stop at an empty stripped line or one starting with the marker,
concatenate the rest. -/
def readSeqFromLines : List (List Char) → Str
  | [] => []
  | ln :: rest =>
      let s := pyStrip ln
      if s = [] ∨ startsWithGt s then [] else s ++ readSeqFromLines rest

/-- Model of fasta_storage._read_one_sequence on the lines from the current
position: clean the header line (a ValueError becomes none), then collect the
sequence lines. -/
def readOneSeqFromLines : List (List Char) → Option (Str × Str)
  | [] => none
  | ln :: rest => (clean_header ln).map fun h => (h, readSeqFromLines rest)

/-- Model of _read_one_sequence(fi, position := pos): seeking to pos and then
reading lines is reading the lines of the suffix from pos. -/
def read_one_sequence (file : List Char) (pos : Nat) : Option (Str × Str) :=
  readOneSeqFromLines (splitLines (file.drop pos))

/-- Model of fasta_storage._iter_header_positions: walk the lines recording
the stream offset before each, and yield (cleaned header, offset) for every
line starting with the marker. -/
def iterHPLines : List (List Char) → Nat → List (Str × Nat)
  | [], _ => []
  | ln :: rest, pos =>
      let tl := iterHPLines rest (pos + ln.length)
      if startsWithGt ln then (pyStrip (removeGtMarker ln), pos) :: tl else tl

/-- Header positions of a whole file, scanned from offset 0. -/
def iter_header_positions (file : List Char) : List (Str × Nat) :=
  iterHPLines (splitLines file) 0

/-- Duplicate-dropping loop of FastaStorage._build_index: the first occurrence
of a header wins, later ones are skipped (with a warning). -/
def buildIndexAux : List (Str × Nat) → List (Str × Nat) → List (Str × Nat)
  | [], acc => acc
  | (h, p) :: rest, acc =>
      if (lookupA acc h).isSome then buildIndexAux rest acc
      else buildIndexAux rest (acc ++ [(h, p)])

/-- Model of FastaStorage._build_index. -/
def build_index (file : List Char) : List (Str × Nat) :=
  buildIndexAux (iter_header_positions file) []

/-- Model of FastaStorage._get_from_source: index lookup, seek and parse, and
a header mismatch (stale index) is reported as absent.  A parse failure, a
ValueError in the source, is also mapped to none here. -/
def fastaGetFromSource (file : List Char) (idx : List (Str × Nat)) (key : Str) :
    Option Str :=
  match lookupA idx key with
  | none => none
  | some pos =>
    match read_one_sequence file pos with
    | none => none
    | some (h, seq) => if key = h then some seq else none

/-- An open FastaStorage handle: construction options, pending state, the
current file content on disk, and the lazily built index (none until built
or after invalidation). -/
structure FastaHandle where
  wrap : Option Nat
  st : PendingState
  file : List Char
  index : Option (List (Str × Nat))
deriving DecidableEq, Repr

/-- A freshly opened single-file storage on the given file content (an absent
file is touched into the empty content). -/
def fastaOpen (wrap : Option Nat) (cacheSize : Option Nat) (file : List Char) :
    FastaHandle :=
  { wrap := wrap, st := initPending cacheSize, file := file, index := none }

/-- Model of FastaStorage.items over an explicit index: backend records whose
header is in neither deleted nor updated, parsed at their recorded offset in
index order, then the updated entries in insertion order.  A parse error
aborts the whole iteration (none). -/
def fastaItems (file : List Char) (idx : List (Str × Nat)) (st : PendingState) :
    Option (List (Str × Str)) :=
  let upd := headersOfUpdatedItems st
  ((idx.filter fun e => decide (e.1 ∉ upd)).mapM
      fun e => read_one_sequence file e.2).map (· ++ st.updated)

/-- Items of a handle, building the index on first use as the _index
property does. -/
def fastaItemsH (h : FastaHandle) : Option (List (Str × Str)) :=
  fastaItems h.file (h.index.getD (build_index h.file)) h.st

/-- Model of FastaStorage.headers: backend-indexed headers not among the
pending edits, in index order, then the updated headers in insertion order. -/
def fastaHeaders (h : FastaHandle) : List Str :=
  let upd := headersOfUpdatedItems h.st
  ((h.index.getD (build_index h.file)).map Prod.fst).filter
      (fun k => decide (k ∉ upd)) ++ h.st.updated.map Prod.fst

/-- Model of FastaStorage.commit: a no-op without pending changes; otherwise
the whole file is rewritten from items() and the index field is set back to
None.  The pending state is left exactly as it was. -/
def fastaCommit (h : FastaHandle) : Option FastaHandle :=
  if h.st.deleted = [] ∧ h.st.updated = [] then some h
  else
    (fastaItemsH h).map fun its =>
      { h with file := (its.map fun e => to_fasta e.1 e.2 h.wrap).flatten
               index := none }

/-! ## Directory backend: FolderStorage -/

/-- Sequence collection loop of folder_storage._read_first_from_file and
tar_storage._read_first_from_buf: read all remaining lines, strip each, stop
only at a line starting with the marker (warning about extra records), and
concatenate, keeping empty stripped lines as empty segments. -/
def collectSeqLines : List (List Char) → Str
  | [] => []
  | ln :: rest =>
      let s := pyStrip ln
      if startsWithGt s then [] else s ++ collectSeqLines rest

/-- Model of _read_first_from_file / _read_first_from_buf on a file or member
content: clean the first line as the header (a ValueError becomes none), then
collect the remaining lines. -/
def readFirstFromContent (content : List Char) : Option (Str × Str) :=
  match splitLines content with
  | [] => none
  | ln :: rest => (clean_header ln).map fun h => (h, collectSeqLines rest)

/-- Index build loop of the FolderStorage._header_to_path property over the
glob enumeration, given as (path, content) pairs in enumeration order: read
the first line of each file, skip a file whose header fails to parse (the
per-file exception is caught and logged), and assign the path into the dict
unconditionally, so a later file overwrites the path of an earlier one with
the same header. -/
def folderBuildIndexAux (acc : List (Str × Str)) :
    List (Str × List Char) → List (Str × Str)
  | [] => acc
  | (p, content) :: rest =>
    match clean_header (splitLines content).headI with
    | none => folderBuildIndexAux acc rest
    | some h => folderBuildIndexAux (odSet acc h p) rest

/-- Model of the FolderStorage._header_to_path index build. -/
def folderHeaderToPath (files : List (Str × List Char)) : List (Str × Str) :=
  folderBuildIndexAux [] files

/-- Unlink loop of FolderStorage.commit over the deleted set: looking up a
header absent from the header-to-path index raises KeyError (the error value
is that header). -/
def unlinkAll (idx : List (Str × Str)) : List Str → Except Str Unit
  | [] => .ok ()
  | h :: rest =>
    match lookupA idx h with
    | none => .error h
    | some _ => unlinkAll idx rest

/-- Model of FolderStorage.commit, restricted to its in-memory effects: a
no-op without pending changes; otherwise the index property is built if
still absent, every deleted header's file is unlinked (KeyError when the
header has no path), and the updated records are written per file.  The
pending state is returned unchanged and the index stays populated. -/
def folderCommit (files : List (Str × List Char))
    (idx0 : Option (List (Str × Str))) (st : PendingState) :
    Except Str (PendingState × Option (List (Str × Str))) :=
  if st.deleted = [] ∧ st.updated = [] then .ok (st, idx0)
  else
    match unlinkAll (idx0.getD (folderHeaderToPath files)) st.deleted with
    | .error k => .error k
    | .ok _ => .ok (st, some (idx0.getD (folderHeaderToPath files)))

/-! ## Archive backend: TarStorage -/

/-- Characters replaced by utils.clean_filename's regular expression. -/
def isUnsafeFilenameChar (c : Char) : Bool :=
  c = '/' || c = '\\' || c = '?' || c = '%' || c = '*' || c = ':' ||
  c = '|' || c = '"' || c = '<' || c = '>' || c = '\x7f' || c.toNat < 0x20

/-- Model of utils.clean_filename: substitute each unsafe character by an
underscore. -/
def clean_filename (s : Str) : Str :=
  s.map fun c => if isUnsafeFilenameChar c then '_' else c

/-- Candidate member or file name number i for a cleaned header: name.fasta,
then name_1.fasta, name_2.fasta and so on. -/
def candidateName (cleaned : Str) (i : Nat) : Str :=
  if i = 0 then cleaned ++ (".fasta").toList
  else cleaned ++ ('_' :: (toString i).toList) ++ (".fasta").toList

/-- Probe loop of the name generators: the first candidate name not among the
existing names.  Among the first existing.length + 1 candidates one is always
unused, so the search is bounded; the fallback branch is unreachable. -/
def probeName (cleaned : Str) (existing : List Str) : Str :=
  match ((List.range (existing.length + 1)).filter
      fun i => decide (candidateName cleaned i ∉ existing)).head? with
  | some i => candidateName cleaned i
  | none => candidateName cleaned (existing.length + 1)

/-- An open TarStorage handle: construction options, pending state, the
archive content as (member name, member content) pairs in member order (none
models an absent archive file), and the lazily built index from header to
member name. -/
structure TarHandle where
  wrap : Option Nat
  st : PendingState
  archive : Option (List (Str × List Char))
  index : Option (List (Str × Str))
deriving DecidableEq, Repr

/-- Index build loop of the TarStorage._header_to_tar_info_name property:
read the first line of each member as the header, keeping the first member
for a duplicated header (later ones warned and skipped).  A first line that
fails clean_header raises out of the build (none). -/
def tarBuildIndexAux (acc : List (Str × Str)) :
    List (Str × List Char) → Option (List (Str × Str))
  | [] => some acc
  | (name, content) :: rest =>
    match clean_header (splitLines content).headI with
    | none => none
    | some h =>
      if (lookupA acc h).isSome then tarBuildIndexAux acc rest
      else tarBuildIndexAux (acc ++ [(h, name)]) rest

/-- Model of the TarStorage index build over the archive members. -/
def tarBuildIndex (members : List (Str × List Char)) :
    Option (List (Str × Str)) :=
  tarBuildIndexAux [] members

/-- Effective value of the _header_to_tar_info_name property: an empty dict
when the archive path does not exist, else the cached index or a fresh
build. -/
def tarEffIndex (h : TarHandle) : Option (List (Str × Str)) :=
  match h.archive with
  | none => some []
  | some ms =>
    match h.index with
    | some i => some i
    | none => tarBuildIndex ms

/-- Backend loop of TarStorage.items: for each indexed header not among the
pending edits, extract the member (a vanished member is skipped as
extractfile returning None is) and parse its first record. -/
def tarBackendItems (ms : List (Str × List Char)) (upd : List Str) :
    List (Str × Str) → Option (List (Str × Str))
  | [] => some []
  | (hd, name) :: rest =>
    if hd ∈ upd then tarBackendItems ms upd rest
    else
      match lookupA ms name with
      | none => tarBackendItems ms upd rest
      | some content =>
        match readFirstFromContent content with
        | none => none
        | some r => (tarBackendItems ms upd rest).map fun t => r :: t

/-- Model of TarStorage.items: the backend loop runs only when the archive
file exists, then the updated entries follow in insertion order. -/
def tarItems (h : TarHandle) : Option (List (Str × Str)) :=
  let upd := headersOfUpdatedItems h.st
  (match h.archive with
   | none => some []
   | some ms =>
     match tarEffIndex h with
     | none => none
     | some idx => tarBackendItems ms upd idx).map (· ++ h.st.updated)

/-- Member generation loop of TarStorage.commit: a header already in the
index copy keeps its member name, a fresh header gets the first unused
sanitized candidate, which is recorded as used. -/
def genMembersAux (wrap : Option Nat) :
    List (Str × Str) → List (Str × Str) → List Str → List (Str × Str)
  | [], _, _ => []
  | (hd, sq) :: rest, map, existing =>
    match lookupA map hd with
    | some name => (name, to_fasta hd sq wrap) :: genMembersAux wrap rest map existing
    | none =>
      let name := probeName (clean_filename hd) existing
      (name, to_fasta hd sq wrap) ::
        genMembersAux wrap rest (map ++ [(hd, name)]) (existing ++ [name])

/-- Members of the rewritten archive from the merged items, with the name
generator seeded from the current index and its member names. -/
def genMembers (wrap : Option Nat) (idx : List (Str × Str))
    (its : List (Str × Str)) : List (Str × Str) :=
  genMembersAux wrap its idx (idx.map Prod.snd)

/-- Model of TarStorage.commit: a no-op without pending changes; otherwise a
brand-new archive is written from items() with generated member names and
renamed over the path, and the index field is set back to None.  The pending
state is left exactly as it was. -/
def tarCommit (h : TarHandle) : Option TarHandle :=
  if h.st.deleted = [] ∧ h.st.updated = [] then some h
  else
    match tarEffIndex h, tarItems h with
    | some idx, some its =>
        some { h with archive := some (genMembers h.wrap idx its), index := none }
    | _, _ => none

/-! ## Operation sequences over the storage core -/

/-- One core operation, as a caller can issue it. -/
inductive StoreOp where
  | getOp (k : Str)
  | setOp (k : Str) (v : Str)
  | delOp (k : Str)
  | hasOp (k : Str)
deriving DecidableEq, Repr

/-- Effect of one operation on the pending state; a membership test does not
mutate it. -/
def stepOp (src : Str → Option Str) (st : PendingState) : StoreOp → PendingState
  | .getOp k => (getItem src st k).state
  | .setOp k v => setItem st k v
  | .delOp k => delItem st k
  | .hasOp _ => st

/-- Runs a sequence of operations from a given pending state. -/
def runOps (src : Str → Option Str) (st : PendingState) :
    List StoreOp → PendingState
  | [] => st
  | op :: rest => runOps src (stepOp src st op) rest

/-- State after a sequence of get calls, keeping only the pending state. -/
def runGets (src : Str → Option Str) (st : PendingState) (ks : List Str) :
    PendingState :=
  ks.foldl (fun s k => (getItem src s k).state) st

/-- Disjointness invariant of the pending structures: any one header is in at
most one of the deleted set, the updated mapping and the cache. -/
def KeysDisjoint (st : PendingState) : Prop :=
  ∀ k : Str,
    ¬(k ∈ st.deleted ∧ (lookupA st.updated k).isSome = true) ∧
    ¬(k ∈ st.deleted ∧ (lookupA st.cache k).isSome = true) ∧
    ¬((lookupA st.updated k).isSome = true ∧ (lookupA st.cache k).isSome = true)

/-! ## Round-trip pipeline for the single-file backend -/

/-- Stores each (header, sequence) pair in turn via __setitem__. -/
def storeAll (pairs : List (Str × Str)) (h : FastaHandle) : FastaHandle :=
  pairs.foldl (fun a e => { a with st := setItem a.st e.1 e.2 }) h

/-- A fresh default handle (no wrap, unbounded cache) on a file content, as
opening the storage anew on the same path. -/
def fastaReopen (file : List Char) : FastaHandle :=
  fastaOpen none none file

/-- Round trip of the claim: open an empty single-file storage, set every
pair, commit, reopen on the committed file and list items(). -/
def fastaRoundTrip (pairs : List (Str × Str)) : Option (List (Str × Str)) :=
  (fastaCommit (storeAll pairs (fastaReopen []))).bind fun h2 =>
    fastaItemsH (fastaReopen h2.file)

/-- Well-formed record for the amended round trip: the header and the
sequence carry no line break and no surrounding whitespace, and the sequence
does not begin with the record marker. -/
def WFrecord (p : Str × Str) : Prop :=
  pyStrip p.1 = p.1 ∧ '\n' ∉ p.1 ∧ '\r' ∉ p.1 ∧
  pyStrip p.2 = p.2 ∧ '\n' ∉ p.2 ∧ '\r' ∉ p.2 ∧ startsWithGt p.2 = false

instance (p : Str × Str) : Decidable (WFrecord p) := by
  unfold WFrecord; infer_instance

/-- Expected index entries of a serialized record list: each header at the
offset where its record starts. -/
def recordPositions : List (Str × Str) → Nat → List (Str × Nat)
  | [], _ => []
  | (k, v) :: rest, pos =>
      (k, pos) :: recordPositions rest (pos + (to_fasta k v none).length)

/-- Lines of the serialization of a record list with no wrapping: for each
record its marker line then its single sequence line. -/
def linesOf : List (Str × Str) → List (List Char)
  | [] => []
  | (k, v) :: rest => ('>' :: (k ++ ['\n'])) :: (v ++ ['\n']) :: linesOf rest

/-- Spec-side description of the amended directory duplicate rule, for
comparison with the built index: the path of the last enumerated file whose
first line parses to the given header. -/
def lastPathFor : List (Str × List Char) → Str → Option Str
  | [], _ => none
  | (p, c) :: rest, h =>
    match lastPathFor rest h with
    | some q => some q
    | none =>
      if clean_header (splitLines c).headI = some h then some p else none

/-! ## Concrete scenario inputs -/

/-- Length of a physical line not counting its newline terminator. -/
def lineLenNoNL (ln : List Char) : Nat :=
  (ln.filter fun c => decide (c ≠ '\n')).length

/-- A handle with one pending update, for the commit-state counterexample. -/
def c1FastaH : FastaHandle :=
  { wrap := none
    st := { cacheSize := none, cache := [], deleted := [],
            updated := [(['A'], ['C'])] }
    file := []
    index := none }

/-- Expected result of committing c1FastaH. -/
def c1FastaRes : FastaHandle :=
  { wrap := none
    st := { cacheSize := none, cache := [], deleted := [],
            updated := [(['A'], ['C'])] }
    file := ['>', 'A', '\n', 'C', '\n']
    index := none }

/-- A tar handle with one pending update on an absent archive. -/
def c1TarH : TarHandle :=
  { wrap := none
    st := { cacheSize := none, cache := [], deleted := [],
            updated := [(['A'], ['C'])] }
    archive := none
    index := none }

/-- Expected result of committing c1TarH. -/
def c1TarRes : TarHandle :=
  { wrap := none
    st := { cacheSize := none, cache := [], deleted := [],
            updated := [(['A'], ['C'])] }
    archive := some [(('A' :: (".fasta").toList), ['>', 'A', '\n', 'C', '\n'])]
    index := none }

/-- Two enumerated files carrying the same header H. -/
def c2Files : List (Str × List Char) :=
  [(('f' :: ('1' :: (".fasta").toList)),
      ['>', 'H', '\n', 'A', 'A', '\n']),
   (('f' :: ('2' :: (".fasta").toList)),
      ['>', 'H', '\n', 'B', 'B', '\n'])]

/-- A single record whose header carries a trailing space. -/
def c3CexPairs : List (Str × Str) :=
  [((['A', ' ']), ['B'])]

/-- The 120-character residue string of the wrap round trip. -/
def seqA120 : Str := List.replicate 120 'A'

/-- The wrap-60 storage after set("A", "A" * 120), before commit. -/
def c10H1 : FastaHandle :=
  { fastaOpen (some 60) none [] with
    st := setItem (initPending none) ['A'] seqA120 }

/-- The on-disk file content produced by committing c10H1. -/
def c10File : List Char :=
  ((fastaCommit c10H1).map FastaHandle.file).getD []

/-- Discriminator for a raised exception in the Except model. -/
def exceptIsError {ε α : Type} : Except ε α → Bool
  | .error _ => true
  | .ok _ => false

/-- A directory-backend pending state with one pending update, for the
commit-state scenarios. -/
def c1FolderSt : PendingState :=
  { cacheSize := none, cache := [], deleted := [], updated := [(['A'], ['C'])] }

/-! ## Lemmas about the association-list and set primitives -/

theorem lookupA_append {α : Type} (a b : List (Str × α)) (k : Str) :
    lookupA (a ++ b) k =
      match lookupA a k with
      | some v => some v
      | none => lookupA b k := by
  induction a with
  | nil => simp [lookupA]
  | cons e rest ih =>
    obtain ⟨k', v⟩ := e
    by_cases h : k = k' <;> simp [lookupA, h, ih]

theorem lookupA_odSet {α : Type} (l : List (Str × α)) (k k' : Str) (v : α) :
    lookupA (odSet l k v) k' = if k' = k then some v else lookupA l k' := by
  induction l with
  | nil => simp [odSet, lookupA]
  | cons e rest ih =>
    obtain ⟨k₀, v₀⟩ := e
    by_cases h : k = k₀
    · subst h
      by_cases h' : k' = k <;> simp [odSet, lookupA, h']
    · by_cases h' : k' = k₀
      · subst h'
        have : ¬ k' = k := fun he => h (he ▸ rfl)
        simp [odSet, h, lookupA, this]
      · simp [odSet, h, lookupA, h', ih]

theorem lookupA_eraseKey {α : Type} (l : List (Str × α)) (k k' : Str) :
    lookupA (eraseKey l k) k' = if k' = k then none else lookupA l k' := by
  induction l with
  | nil => simp [eraseKey, lookupA]
  | cons e rest ih =>
    obtain ⟨k₀, v₀⟩ := e
    by_cases h : k = k₀
    · subst h
      by_cases h' : k' = k
      · subst h'
        simp [eraseKey, ih]
      · simp [eraseKey, lookupA, h', ih]
    · by_cases h' : k' = k₀
      · subst h'
        have : ¬ k' = k := fun he => h (he ▸ rfl)
        simp [eraseKey, h, lookupA, this]
      · simp [eraseKey, h, lookupA, h', ih]

theorem lookupA_moveToEnd_self {α : Type} (l : List (Str × α)) (k : Str) :
    lookupA (moveToEnd l k) k = lookupA l k := by
  unfold moveToEnd
  cases hl : lookupA l k with
  | none => exact hl
  | some v =>
    rw [lookupA_append, lookupA_eraseKey]
    simp [lookupA, hl]

theorem lookupA_moveToEnd_isSome {α : Type} (l : List (Str × α)) (k k' : Str) :
    (lookupA (moveToEnd l k) k').isSome = (lookupA l k').isSome := by
  unfold moveToEnd
  cases hl : lookupA l k with
  | none => rfl
  | some v =>
    rw [lookupA_append, lookupA_eraseKey]
    by_cases h : k' = k
    · subst h; simp [lookupA, hl]
    · simp [h]
      cases lookupA l k' <;> simp [lookupA, h]

theorem mem_addToSet (l : List Str) (k k' : Str) :
    k' ∈ addToSet l k ↔ k' ∈ l ∨ k' = k := by
  unfold addToSet
  by_cases h : k ∈ l
  · simp only [if_pos h]
    exact ⟨fun h' => Or.inl h', fun h' => h'.elim id fun e => e ▸ h⟩
  · simp [if_neg h]

theorem mem_eraseFromSet (l : List Str) (k k' : Str) :
    k' ∈ eraseFromSet l k ↔ k' ∈ l ∧ k' ≠ k := by
  unfold eraseFromSet
  simp [List.mem_filter]

/-! ## Claim C5 -/

/-- C5: for every storage state and every header, get(header) immediately
after delete(header) fails with NotFound (KeyError, modelled as none), with
no condition on the committed backend and no commit in between. -/
theorem c5_get_after_delete_fails (src : Str → Option Str)
    (st : PendingState) (k : Str) :
    (getItem src (delItem st k) k).result = none := by
  have hk : k ∈ (delItem st k).deleted := by
    simp [delItem, mem_addToSet]
  simp [getItem, hk]

/-! ## Claim C6 -/

/-- C6: after delete(header) followed by set(header, v), contains(header)
is true and get(header) returns v, for every state, header and value. -/
theorem c6_set_after_delete (src : Str → Option Str) (cs : Str → Bool)
    (st : PendingState) (k : Str) (v : Str) :
    containsItem cs (setItem (delItem st k) k v) k = true ∧
    (getItem src (setItem (delItem st k) k v) k).result = some v := by
  have hdel : k ∉ (setItem (delItem st k) k v).deleted := by
    simp [setItem, mem_eraseFromSet]
  have hupd : lookupA (setItem (delItem st k) k v).updated k = some v := by
    show lookupA (moveToEnd (odSet (delItem st k).updated k v) k) k = some v
    rw [lookupA_moveToEnd_self, lookupA_odSet]
    simp
  constructor
  · simp [containsItem, hdel, hupd]
  · simp [getItem, hdel, hupd]

/-! ## Claim C4 -/

theorem unlinkAll_error_of_missing (idx : List (Str × Str)) :
    ∀ (del : List Str) (k : Str), k ∈ del → lookupA idx k = none →
      exceptIsError (unlinkAll idx del) = true := by
  intro del
  induction del with
  | nil => intro k hm; cases hm
  | cons d rest ih =>
    intro k hm hmiss
    cases hl : lookupA idx d with
    | none => simp [unlinkAll, hl, exceptIsError]
    | some v =>
      rcases List.mem_cons.mp hm with he | hm'
      · subst he
        rw [hmiss] at hl
        cases hl
      · simp only [unlinkAll, hl]
        exact ih k hm' hmiss

/-- C4: deleting a header that has no file in the directory index (delete
itself accepts any header) and then committing makes commit raise the
KeyError from the header-to-path lookup instead of completing. -/
theorem c4_commit_missing_deleted_key_errors
    (files : List (Str × List Char)) (idx0 : Option (List (Str × Str)))
    (st : PendingState) (k : Str)
    (hmiss : lookupA (idx0.getD (folderHeaderToPath files)) k = none) :
    exceptIsError (folderCommit files idx0 (delItem st k)) = true := by
  have hk : k ∈ (delItem st k).deleted := by
    simp [delItem, mem_addToSet]
  have hne : ¬ ((delItem st k).deleted = [] ∧ (delItem st k).updated = []) := by
    rintro ⟨h1, -⟩
    rw [h1] at hk
    cases hk
  have herr := unlinkAll_error_of_missing (idx0.getD (folderHeaderToPath files))
      (delItem st k).deleted k hk hmiss
  unfold folderCommit
  rw [if_neg hne]
  cases hu : unlinkAll (idx0.getD (folderHeaderToPath files))
      (delItem st k).deleted with
  | error e => simp [hu, exceptIsError]
  | ok u =>
    rw [hu] at herr
    cases herr

/-- Witness for C4 at a concrete input: an empty directory and a deleted
header A that no file carries. -/
theorem c4_witness :
    lookupA ((none : Option (List (Str × Str))).getD (folderHeaderToPath []))
        ['A'] = none ∧
    exceptIsError (folderCommit [] none (delItem (initPending none) ['A'])) =
      true :=
  ⟨by decide,
   c4_commit_missing_deleted_key_errors [] none (initPending none) ['A']
     (by decide)⟩

/-! ## Claim C2 -/

/-- C2 counterexample: two enumerated files share the header H; the built
index maps H to the second (later) file, not the first, so "first file
encountered wins" fails. -/
theorem c2_counterexample :
    lookupA (folderHeaderToPath c2Files) ['H'] =
      some ('f' :: ('2' :: (".fasta").toList)) ∧
    ('f' :: ('2' :: (".fasta").toList)) ≠ ('f' :: ('1' :: (".fasta").toList)) := by
  decide

/-- C2 amended: when several files matched by the glob carry the same header,
the directory index maps that header to the last file encountered in
filesystem enumeration order, later files overwriting the mapping of earlier
ones. -/
theorem c2_last_file_wins (files : List (Str × List Char)) (h : Str) :
    lookupA (folderHeaderToPath files) h = lastPathFor files h := by
  have key : ∀ (fs : List (Str × List Char)) (acc : List (Str × Str)),
      lookupA (folderBuildIndexAux acc fs) h =
        match lastPathFor fs h with
        | some q => some q
        | none => lookupA acc h := by
    intro fs
    induction fs with
    | nil =>
      intro acc
      simp [folderBuildIndexAux, lastPathFor]
    | cons e rest ih =>
      intro acc
      obtain ⟨p, c⟩ := e
      cases hc : clean_header (splitLines c).headI with
      | none =>
        simp only [folderBuildIndexAux, lastPathFor, hc]
        rw [ih]
        cases lastPathFor rest h <;> simp
      | some hd =>
        simp only [folderBuildIndexAux, lastPathFor, hc]
        rw [ih]
        cases hr : lastPathFor rest h with
        | some q => simp
        | none =>
          simp only [lookupA_odSet]
          by_cases he : h = hd
          · subst he; simp
          · have hne : ¬ (some hd = some h) := by
              intro hcon
              exact he (Option.some.inj hcon).symm
            simp [he, hne]
  unfold folderHeaderToPath
  rw [key files []]
  cases lastPathFor files h <;> simp [lookupA]

/-! ## Claim C1 -/

/-- C1 counterexample: a single-file storage with one pending update commits
successfully, yet the updated mapping is not cleared afterwards. -/
theorem c1_counterexample :
    (fastaCommit c1FastaH).isSome = true ∧
    (fastaCommit c1FastaH).map (fun x => x.st.updated) ≠ some [] := by
  decide

/-- C1 amended: after a successful commit with non-empty pending state, the
deleted set and the updated mapping keep their pre-commit contents (nothing
clears them); the single-file and archive backends do set their lazily built
index back to absent, while the directory backend leaves its index populated
with the mapping built from the pre-commit directory contents. -/
theorem c1_commit_pending_not_cleared :
    (∀ (h h' : FastaHandle), ¬(h.st.deleted = [] ∧ h.st.updated = []) →
        fastaCommit h = some h' → h'.st = h.st ∧ h'.index = none) ∧
    (∀ (h h' : TarHandle), ¬(h.st.deleted = [] ∧ h.st.updated = []) →
        tarCommit h = some h' → h'.st = h.st ∧ h'.index = none) ∧
    (∀ (files : List (Str × List Char)) (idx0 : Option (List (Str × Str)))
        (st : PendingState) (out : PendingState × Option (List (Str × Str))),
        ¬(st.deleted = [] ∧ st.updated = []) →
        folderCommit files idx0 st = .ok out →
        out.1 = st ∧ out.2 = some (idx0.getD (folderHeaderToPath files))) := by
  refine ⟨?_, ?_, ?_⟩
  · intro h h' hne hc
    unfold fastaCommit at hc
    rw [if_neg hne] at hc
    cases hi : fastaItemsH h with
    | none => rw [hi] at hc; cases hc
    | some its =>
      rw [hi] at hc
      simp only [Option.map_some'] at hc
      cases hc
      exact ⟨rfl, rfl⟩
  · intro h h' hne hc
    unfold tarCommit at hc
    rw [if_neg hne] at hc
    cases hidx : tarEffIndex h with
    | none => rw [hidx] at hc; cases hit : tarItems h <;> rw [hit] at hc <;> cases hc
    | some idx =>
      cases hit : tarItems h with
      | none => rw [hidx, hit] at hc; cases hc
      | some its =>
        rw [hidx, hit] at hc
        cases hc
        exact ⟨rfl, rfl⟩
  · intro files idx0 st out hne hc
    unfold folderCommit at hc
    rw [if_neg hne] at hc
    cases hu : unlinkAll (idx0.getD (folderHeaderToPath files)) st.deleted with
    | error e => rw [hu] at hc; cases hc
    | ok u =>
      rw [hu] at hc
      cases hc
      exact ⟨rfl, rfl⟩

/-- Witness for C1 amended, applying all three parts at concrete handles
with one pending update each. -/
theorem c1_witness :
    ((c1FastaRes.st = c1FastaH.st ∧ c1FastaRes.index = none) ∧
     (c1TarRes.st = c1TarH.st ∧ c1TarRes.index = none) ∧
     ((c1FolderSt, some ([] : List (Str × Str))).1 = c1FolderSt ∧
      (c1FolderSt, some ([] : List (Str × Str))).2 =
        some ((none : Option (List (Str × Str))).getD (folderHeaderToPath [])))) :=
  ⟨c1_commit_pending_not_cleared.1 c1FastaH c1FastaRes (by decide) (by decide),
   c1_commit_pending_not_cleared.2.1 c1TarH c1TarRes (by decide) (by decide),
   c1_commit_pending_not_cleared.2.2 [] none c1FolderSt
     (c1FolderSt, some []) (by decide) (by rfl)⟩

/-! ## Storing fresh keys appends to updated in insertion order -/

theorem odSet_not_mem {α : Type} (l : List (Str × α)) (k : Str) (v : α)
    (h : lookupA l k = none) : odSet l k v = l ++ [(k, v)] := by
  induction l with
  | nil => simp [odSet]
  | cons e rest ih =>
    obtain ⟨k₀, v₀⟩ := e
    by_cases hk : k = k₀
    · subst hk
      simp [lookupA] at h
    · simp only [lookupA, if_neg (by simpa [eq_comm] using hk)] at h
      simp [odSet, hk, ih h]

theorem eraseKey_append {α : Type} (a b : List (Str × α)) (k : Str) :
    eraseKey (a ++ b) k = eraseKey a k ++ eraseKey b k := by
  induction a with
  | nil => simp [eraseKey]
  | cons e rest ih =>
    obtain ⟨k₀, v₀⟩ := e
    by_cases hk : k = k₀
    · subst hk
      simp [eraseKey, ih]
    · simp [eraseKey, hk, ih]

theorem eraseKey_not_mem {α : Type} (l : List (Str × α)) (k : Str)
    (h : lookupA l k = none) : eraseKey l k = l := by
  induction l with
  | nil => rfl
  | cons e rest ih =>
    obtain ⟨k₀, v₀⟩ := e
    by_cases hk : k = k₀
    · subst hk
      simp [lookupA] at h
    · simp only [lookupA, if_neg (by simpa [eq_comm] using hk)] at h
      simp [eraseKey, hk, ih h]

theorem setItem_fresh (st : PendingState) (k : Str) (v : Str)
    (hdel : st.deleted = []) (hcache : st.cache = [])
    (hupd : lookupA st.updated k = none) :
    setItem st k v =
      { st with updated := st.updated ++ [(k, v)] } := by
  have hupdated :
      moveToEnd (odSet st.updated k v) k = st.updated ++ [(k, v)] := by
    rw [odSet_not_mem st.updated k v hupd]
    unfold moveToEnd
    rw [lookupA_append, hupd]
    simp only [lookupA, if_pos rfl]
    rw [eraseKey_append, eraseKey_not_mem st.updated k hupd]
    simp [eraseKey]
  unfold setItem
  rw [hupdated, hdel, hcache]
  simp [eraseFromSet, eraseKey]

theorem foldSet_state (pairs : List (Str × Str)) :
    ∀ (st : PendingState), st.deleted = [] → st.cache = [] →
    (∀ k ∈ pairs.map Prod.fst, lookupA st.updated k = none) →
    (pairs.map Prod.fst).Nodup →
    pairs.foldl (fun s e => setItem s e.1 e.2) st =
      { st with updated := st.updated ++ pairs } := by
  induction pairs with
  | nil =>
    intro st h1 h2 _ _
    simp
  | cons e rest ih =>
    intro st h1 h2 hfresh hnd
    obtain ⟨k, v⟩ := e
    rw [List.foldl_cons]
    rw [setItem_fresh st k v h1 h2 (hfresh k (by simp))]
    have hnd0 : (k :: rest.map Prod.fst).Nodup := by simpa using hnd
    have hknotin : k ∉ rest.map Prod.fst := (List.nodup_cons.mp hnd0).1
    have hfresh' : ∀ k' ∈ rest.map Prod.fst,
        lookupA (st.updated ++ [(k, v)]) k' = none := by
      intro k' hk'
      rw [lookupA_append, hfresh k' (by simp [hk'])]
      have : ¬ k' = k := fun he => hknotin (he ▸ hk')
      simp [lookupA, this]
    have hnd' : (rest.map Prod.fst).Nodup := (List.nodup_cons.mp hnd0).2
    rw [ih { st with updated := st.updated ++ [(k, v)] } h1 h2 hfresh' hnd']
    simp

/-! ## Claim C9 -/

/-- C9: on an empty store, setting three distinct headers in order and then
listing headers() yields exactly those headers in insertion order: the
backend-indexed part is empty and the updated part follows insertion
order. -/
theorem c9_headers_order (x y z vx vy vz : Str)
    (hxy : x ≠ y) (hxz : x ≠ z) (hyz : y ≠ z) :
    fastaHeaders
      { wrap := none
        st := setItem (setItem (setItem (initPending none) x vx) y vy) z vz
        file := []
        index := none } = [x, y, z] := by
  have hst :
      setItem (setItem (setItem (initPending none) x vx) y vy) z vz =
        { cacheSize := none, cache := [], deleted := [],
          updated := [(x, vx), (y, vy), (z, vz)] } := by
    have h := foldSet_state [(x, vx), (y, vy), (z, vz)] (initPending none)
      rfl rfl (by intro k _; rfl) (by simp [hxy, hxz, hyz])
    simpa [initPending] using h
  rw [hst]
  simp [fastaHeaders, build_index, iter_header_positions, splitLines,
    splitLinesAux, iterHPLines, buildIndexAux, headersOfUpdatedItems]

/-- Witness for C9 at the concrete headers X, Y, Z of the spec. -/
theorem c9_witness :
    fastaHeaders
      { wrap := none
        st := setItem (setItem (setItem (initPending none) ['X'] ['1'])
          ['Y'] ['2']) ['Z'] ['3']
        file := []
        index := none } = [['X'], ['Y'], ['Z']] :=
  c9_headers_order ['X'] ['Y'] ['Z'] ['1'] ['2'] ['3']
    (by decide) (by decide) (by decide)

/-! ## Claim C7 -/

theorem lookupA_isSome_of_drop_one {α : Type} (l : List (Str × α)) (k : Str)
    (h : (lookupA (l.drop 1) k).isSome = true) :
    (lookupA l k).isSome = true := by
  cases l with
  | nil => simpa using h
  | cons e rest =>
    obtain ⟨k₀, v₀⟩ := e
    simp only [List.drop_succ_cons, List.drop_zero] at h
    by_cases hk : k = k₀ <;> simp [lookupA, hk, h]

theorem disjoint_cache_moveToEnd (st : PendingState) (k : Str)
    (h : KeysDisjoint st) :
    KeysDisjoint { st with cache := moveToEnd st.cache k } := by
  intro k'
  obtain ⟨h1, h2, h3⟩ := h k'
  refine ⟨h1, ?_, ?_⟩
  · rintro ⟨hd, hc⟩
    rw [lookupA_moveToEnd_isSome] at hc
    exact h2 ⟨hd, hc⟩
  · rintro ⟨hu, hc⟩
    rw [lookupA_moveToEnd_isSome] at hc
    exact h3 ⟨hu, hc⟩

theorem lookupA_putToCache_isSome (st : PendingState) (k : Str) (v : Str)
    (k' : Str) (hc : (lookupA (putToCache st k v).cache k').isSome = true) :
    k' = k ∨ (lookupA st.cache k').isSome = true := by
  have hod : (lookupA (odSet st.cache k v) k').isSome = true →
      k' = k ∨ (lookupA st.cache k').isSome = true := by
    rw [lookupA_odSet]
    by_cases hk : k' = k
    · exact fun _ => Or.inl hk
    · rw [if_neg hk]
      exact fun hh => Or.inr hh
  unfold putToCache at hc
  dsimp only at hc
  cases hcs : st.cacheSize with
  | none =>
    rw [hcs] at hc
    exact hod hc
  | some n =>
    cases n with
    | zero =>
      rw [hcs] at hc
      exact hod hc
    | succ m =>
      rw [hcs] at hc
      dsimp only at hc
      by_cases hlen : (odSet st.cache k v).length > m + 1
      · rw [if_pos hlen] at hc
        exact hod (lookupA_isSome_of_drop_one _ k' hc)
      · rw [if_neg hlen] at hc
        exact hod hc

theorem disjoint_putToCache (st : PendingState) (k : Str) (v : Str)
    (h : KeysDisjoint st) (hdel : k ∉ st.deleted)
    (hupd : lookupA st.updated k = none) :
    KeysDisjoint (putToCache st k v) := by
  intro k'
  obtain ⟨h1, h2, h3⟩ := h k'
  refine ⟨h1, ?_, ?_⟩
  · rintro ⟨hd, hc⟩
    rcases lookupA_putToCache_isSome st k v k' hc with he | hc'
    · subst he
      exact hdel hd
    · exact h2 ⟨hd, hc'⟩
  · rintro ⟨hu, hc⟩
    rcases lookupA_putToCache_isSome st k v k' hc with he | hc'
    · subst he
      have hu' : (lookupA st.updated k').isSome = true := hu
      rw [hupd] at hu'
      cases hu'
    · exact h3 ⟨hu, hc'⟩

theorem disjoint_getItem (src : Str → Option Str) (st : PendingState) (k : Str)
    (h : KeysDisjoint st) : KeysDisjoint (getItem src st k).state := by
  unfold getItem
  by_cases hdel : k ∈ st.deleted
  · rw [if_pos hdel]
    exact h
  · rw [if_neg hdel]
    cases hupd : lookupA st.updated k with
    | some v => exact h
    | none =>
      cases hcache : lookupA st.cache k with
      | some v => exact disjoint_cache_moveToEnd st k h
      | none =>
        cases hsrc : src k with
        | none => exact h
        | some v => exact disjoint_putToCache st k v h hdel hupd

theorem disjoint_setItem (st : PendingState) (k : Str) (v : Str)
    (h : KeysDisjoint st) : KeysDisjoint (setItem st k v) := by
  intro k'
  obtain ⟨h1, h2, h3⟩ := h k'
  unfold setItem
  dsimp only
  by_cases hk : k' = k
  · subst hk
    refine ⟨?_, ?_, ?_⟩
    · rintro ⟨hd, -⟩
      rw [mem_eraseFromSet] at hd
      exact hd.2 rfl
    · rintro ⟨hd, -⟩
      rw [mem_eraseFromSet] at hd
      exact hd.2 rfl
    · rintro ⟨-, hc⟩
      rw [lookupA_eraseKey] at hc
      simp at hc
  · refine ⟨?_, ?_, ?_⟩
    · rintro ⟨hd, hu⟩
      rw [mem_eraseFromSet] at hd
      rw [lookupA_moveToEnd_isSome, lookupA_odSet, if_neg hk] at hu
      exact h1 ⟨hd.1, hu⟩
    · rintro ⟨hd, hc⟩
      rw [mem_eraseFromSet] at hd
      rw [lookupA_eraseKey, if_neg hk] at hc
      exact h2 ⟨hd.1, hc⟩
    · rintro ⟨hu, hc⟩
      rw [lookupA_moveToEnd_isSome, lookupA_odSet, if_neg hk] at hu
      rw [lookupA_eraseKey, if_neg hk] at hc
      exact h3 ⟨hu, hc⟩

theorem disjoint_delItem (st : PendingState) (k : Str)
    (h : KeysDisjoint st) : KeysDisjoint (delItem st k) := by
  intro k'
  obtain ⟨h1, h2, h3⟩ := h k'
  unfold delItem
  dsimp only
  by_cases hk : k' = k
  · subst hk
    refine ⟨?_, ?_, ?_⟩
    · rintro ⟨-, hu⟩
      rw [lookupA_eraseKey] at hu
      simp at hu
    · rintro ⟨-, hc⟩
      rw [lookupA_eraseKey] at hc
      simp at hc
    · rintro ⟨hu, -⟩
      rw [lookupA_eraseKey] at hu
      simp at hu
  · refine ⟨?_, ?_, ?_⟩
    · rintro ⟨hd, hu⟩
      rw [mem_addToSet] at hd
      rw [lookupA_eraseKey, if_neg hk] at hu
      rcases hd with hd | he
      · exact h1 ⟨hd, hu⟩
      · exact hk he
    · rintro ⟨hd, hc⟩
      rw [mem_addToSet] at hd
      rw [lookupA_eraseKey, if_neg hk] at hc
      rcases hd with hd | he
      · exact h2 ⟨hd, hc⟩
      · exact hk he
    · rintro ⟨hu, hc⟩
      rw [lookupA_eraseKey, if_neg hk] at hu
      rw [lookupA_eraseKey, if_neg hk] at hc
      exact h3 ⟨hu, hc⟩

theorem disjoint_stepOp (src : Str → Option Str) (st : PendingState)
    (op : StoreOp) (h : KeysDisjoint st) : KeysDisjoint (stepOp src st op) := by
  cases op with
  | getOp k => exact disjoint_getItem src st k h
  | setOp k v => exact disjoint_setItem st k v h
  | delOp k => exact disjoint_delItem st k h
  | hasOp k => exact h

theorem disjoint_runOps (src : Str → Option Str) (ops : List StoreOp) :
    ∀ (st : PendingState), KeysDisjoint st → KeysDisjoint (runOps src st ops) := by
  induction ops with
  | nil => intro st h; exact h
  | cons op rest ih =>
    intro st h
    exact ih (stepOp src st op) (disjoint_stepOp src st op h)

/-- C7: starting from a freshly constructed storage, after any sequence of
get, set, delete and contains operations, every header lies in at most one
of the deleted set, the updated mapping and the cache. -/
theorem c7_disjoint_invariant (src : Str → Option Str) (csz : Option Nat)
    (ops : List StoreOp) :
    KeysDisjoint (runOps src (initPending csz) ops) := by
  apply disjoint_runOps
  intro k
  refine ⟨?_, ?_, ?_⟩ <;> rintro ⟨ha, hb⟩ <;> simp [initPending, lookupA] at *

/-! ## Claim C8 -/

theorem lookupA_map_pair_not_mem (f : Str → Str) (l : List Str) (k : Str)
    (h : k ∉ l) : lookupA (l.map fun x => (x, f x)) k = none := by
  induction l with
  | nil => rfl
  | cons a t ih =>
    have hka : ¬ k = a := fun he => h (by simp [he])
    simp only [List.map_cons, lookupA, if_neg hka]
    exact ih fun hm => h (by simp [hm])

theorem getItem_source_branch (src : Str → Option Str) (st : PendingState)
    (k : Str) (hdel : k ∉ st.deleted) (hupd : lookupA st.updated k = none)
    (hcache : lookupA st.cache k = none) :
    getItem src st k =
      match src k with
      | none => ⟨none, st, true⟩
      | some v => ⟨some v, putToCache st k v, true⟩ := by
  unfold getItem
  rw [if_neg hdel, hupd, hcache]

theorem runGets_cache (C : Nat) (v : Str → Str) (src : Str → Option Str) :
    ∀ (p : List Str), p.Nodup → (∀ k ∈ p, src k = some (v k)) →
    runGets src (initPending (some (C + 1))) p =
      { cacheSize := some (C + 1)
        cache := (p.drop (p.length - (C + 1))).map fun k => (k, v k)
        deleted := []
        updated := [] } := by
  intro p
  induction p using List.reverseRecOn with
  | nil =>
    intro _ _
    simp [runGets, initPending]
  | append_singleton p a ih =>
    intro hnd hsrc
    have hsplit := List.nodup_append.mp hnd
    have ha : a ∉ p := by
      intro hm
      exact hsplit.2.2 hm (by simp)
    have hstp := ih hsplit.1 fun k hk => hsrc k (by simp [hk])
    have hstep : runGets src (initPending (some (C + 1))) (p ++ [a]) =
        (getItem src (runGets src (initPending (some (C + 1))) p) a).state := by
      unfold runGets
      rw [List.foldl_append]
      rfl
    have hnotdrop : a ∉ p.drop (p.length - (C + 1)) :=
      fun hm => ha ((List.drop_sublist _ _).subset hm)
    have hlk : lookupA ((p.drop (p.length - (C + 1))).map fun k => (k, v k)) a =
        none := lookupA_map_pair_not_mem v _ a hnotdrop
    have hsrca : src a = some (v a) := hsrc a (by simp)
    rw [hstep, hstp]
    rw [getItem_source_branch src _ a (by simp) (by simp [lookupA]) hlk]
    rw [hsrca]
    show putToCache
        { cacheSize := some (C + 1)
          cache := (p.drop (p.length - (C + 1))).map fun k => (k, v k)
          deleted := []
          updated := [] } a (v a) = _
    unfold putToCache
    dsimp only
    rw [odSet_not_mem _ _ _ hlk]
    have hlencp : ((p.drop (p.length - (C + 1))).map fun k => (k, v k)).length =
        p.length - (p.length - (C + 1)) := by
      simp
    by_cases hp : p.length ≤ C
    · have h0 : p.length - (C + 1) = 0 := by omega
      have h0' : p.length + 1 - (C + 1) = 0 := by omega
      have hnogt : ¬ (((p.drop (p.length - (C + 1))).map fun k => (k, v k)) ++
          [(a, v a)]).length > C + 1 := by
        rw [List.length_append, hlencp]
        simp
        omega
      rw [if_neg hnogt]
      simp [h0, h0']
    · have hge : C + 1 ≤ p.length := by omega
      have hle : (p.drop (p.length - (C + 1))).length = C + 1 := by
        rw [List.length_drop]
        omega
      have hgt : (((p.drop (p.length - (C + 1))).map fun k => (k, v k)) ++
          [(a, v a)]).length > C + 1 := by
        rw [List.length_append, hlencp]
        simp
        omega
      rw [if_pos hgt]
      have hdrop1 : (((p.drop (p.length - (C + 1))).map fun k => (k, v k)) ++
          [(a, v a)]).drop 1 =
          ((p.drop (p.length + 1 - (C + 1))).map fun k => (k, v k)) ++
            [(a, v a)] := by
        rw [List.drop_append_of_le_length (by rw [List.length_map, hle]; omega)]
        rw [← List.map_drop, List.drop_drop]
        have h11 : p.length - (C + 1) + 1 = p.length + 1 - (C + 1) := by omega
        rw [h11]
      rw [hdrop1]
      have hsuffix : (p ++ [a]).drop (p.length + 1 - (C + 1)) =
          p.drop (p.length + 1 - (C + 1)) ++ [a] :=
        List.drop_append_of_le_length (by omega)
      have hlen' : (p ++ [a]).length - (C + 1) = p.length + 1 - (C + 1) := by
        rw [List.length_append]
        simp
      have hcacheeq :
          ((p ++ [a]).drop ((p ++ [a]).length - (C + 1))).map
              (fun k => (k, v k)) =
            (p.drop (p.length + 1 - (C + 1))).map (fun k => (k, v k)) ++
              [(a, v a)] := by
        rw [hlen', hsuffix, List.map_append]
        rfl
      rw [hcacheeq]

/-- C8: with positive cache capacity C and C + 1 distinct headers all present
in the backend and untouched by pending edits, getting each in sequence from
a fresh storage leaves at most C cached entries, evicts the first-accessed
header, and a following get of that header goes back to the backend read. -/
theorem c8_cache_eviction (C : Nat) (v : Str → Str) (src : Str → Option Str)
    (k0 : Str) (ks : List Str) (hC : 0 < C)
    (hnd : (k0 :: ks).Nodup) (hlen : (k0 :: ks).length = C + 1)
    (hsrc : ∀ k ∈ k0 :: ks, src k = some (v k)) :
    (runGets src (initPending (some C)) (k0 :: ks)).cache.length ≤ C ∧
    lookupA (runGets src (initPending (some C)) (k0 :: ks)).cache k0 = none ∧
    (getItem src (runGets src (initPending (some C)) (k0 :: ks)) k0).sourceRead
      = true ∧
    (getItem src (runGets src (initPending (some C)) (k0 :: ks)) k0).result
      = some (v k0) := by
  obtain ⟨m, rfl⟩ : ∃ m, C = m + 1 := ⟨C - 1, by omega⟩
  have hst := runGets_cache m v src (k0 :: ks) hnd hsrc
  have hdrop : (k0 :: ks).drop ((k0 :: ks).length - (m + 1)) = ks := by
    have : (k0 :: ks).length - (m + 1) = 1 := by
      rw [hlen]
      omega
    rw [this]
    rfl
  rw [hdrop] at hst
  have hk0 : k0 ∉ ks := (List.nodup_cons.mp hnd).1
  have hlk : lookupA (ks.map fun k => (k, v k)) k0 = none :=
    lookupA_map_pair_not_mem v ks k0 hk0
  have hlenks : ks.length = m + 1 := by
    simpa using hlen
  rw [hst]
  refine ⟨by simp [hlenks], by simpa using hlk, ?_, ?_⟩ <;>
    simp [getItem, lookupA, hlk, hsrc k0 (by simp)]

/-- Witness for C8 at capacity 1 with headers A then B over the identity
backend. -/
theorem c8_witness :
    (runGets (fun k => some k) (initPending (some 1)) [['A'], ['B']]).cache.length
      ≤ 1 ∧
    lookupA (runGets (fun k => some k) (initPending (some 1))
      [['A'], ['B']]).cache ['A'] = none ∧
    (getItem (fun k => some k) (runGets (fun k => some k)
      (initPending (some 1)) [['A'], ['B']]) ['A']).sourceRead = true ∧
    (getItem (fun k => some k) (runGets (fun k => some k)
      (initPending (some 1)) [['A'], ['B']]) ['A']).result = some ['A'] :=
  c8_cache_eviction 1 (fun k => k) (fun k => some k) ['A'] [['B']]
    (by decide) (by decide) (by decide) (by decide)

/-! ## Lemmas about stripping and line splitting -/

theorem dropWhile_eq_self_of_stripped (s : Str) (h : pyStrip s = s) :
    s.dropWhile isPySpace = s := by
  have hsuf : s.dropWhile isPySpace <:+ s := List.dropWhile_suffix _
  have hlen2 : (pyStrip s).length ≤ (s.dropWhile isPySpace).length := by
    unfold pyStrip
    rw [List.length_reverse]
    calc ((s.dropWhile isPySpace).reverse.dropWhile isPySpace).length
        ≤ (s.dropWhile isPySpace).reverse.length :=
          ((List.dropWhile_suffix _).sublist).length_le
      _ = (s.dropWhile isPySpace).length := List.length_reverse _
  have hlen : (s.dropWhile isPySpace).length = s.length := by
    have h1 : (s.dropWhile isPySpace).length ≤ s.length :=
      (hsuf.sublist).length_le
    have h2 : s.length ≤ (s.dropWhile isPySpace).length := by
      calc s.length = (pyStrip s).length := by rw [h]
        _ ≤ (s.dropWhile isPySpace).length := hlen2
    omega
  exact hsuf.eq_of_length hlen

theorem dropWhile_reverse_eq_of_stripped (s : Str) (h : pyStrip s = s) :
    s.reverse.dropWhile isPySpace = s.reverse := by
  have h1 := dropWhile_eq_self_of_stripped s h
  have h2 : pyStrip s = (s.reverse.dropWhile isPySpace).reverse := by
    unfold pyStrip
    rw [h1]
  have h3 : (s.reverse.dropWhile isPySpace).reverse = s := by
    rw [← h2, h]
  calc s.reverse.dropWhile isPySpace
      = ((s.reverse.dropWhile isPySpace).reverse).reverse := by
        rw [List.reverse_reverse]
    _ = s.reverse := by rw [h3]

theorem head_not_space_of_stripped (c : Char) (t : Str)
    (h : pyStrip (c :: t) = c :: t) : isPySpace c = false := by
  have h1 := dropWhile_eq_self_of_stripped (c :: t) h
  by_cases hc : isPySpace c = true
  · rw [List.dropWhile_cons, if_pos hc] at h1
    have := (List.dropWhile_suffix (l := t) isPySpace).sublist.length_le
    rw [h1] at this
    simp at this
  · simpa using hc

theorem pyStrip_append_newline (s : Str) (h : pyStrip s = s) :
    pyStrip (s ++ ['\n']) = s := by
  cases s with
  | nil => rfl
  | cons c t =>
    have hc : isPySpace c = false := head_not_space_of_stripped c t h
    unfold pyStrip
    rw [List.cons_append, List.dropWhile_cons, if_neg (by simp [hc])]
    have hrev : ((c :: (t ++ ['\n'])).reverse) = '\n' :: (t.reverse ++ [c]) := by
      simp
    rw [hrev, List.dropWhile_cons, if_pos (by simp [isPySpace])]
    have hrev2 : t.reverse ++ [c] = (c :: t).reverse := by simp
    rw [hrev2, dropWhile_reverse_eq_of_stripped (c :: t) h, List.reverse_reverse]

theorem clean_header_marker_line (k : Str) (h : pyStrip k = k) :
    clean_header ('>' :: (k ++ ['\n'])) = some k := by
  simp [clean_header, startsWithGt, removeGtMarker, pyStrip_append_newline k h]

theorem pyStrip_cons_of_not_space (c : Char) (l : List Char)
    (hc : isPySpace c = false) : ∃ t, pyStrip (c :: l) = c :: t := by
  unfold pyStrip
  rw [List.dropWhile_cons, if_neg (by simp [hc])]
  have hrev : (c :: l).reverse = l.reverse ++ [c] := by simp
  rw [hrev, List.dropWhile_append]
  by_cases he : (l.reverse.dropWhile isPySpace).isEmpty = true
  · rw [if_pos he, List.dropWhile_cons]
    rw [if_neg (by simp [hc])]
    exact ⟨[], by simp⟩
  · rw [if_neg he]
    exact ⟨(l.reverse.dropWhile isPySpace).reverse, by simp⟩

theorem pyStrip_marker_line_starts (l : List Char) :
    startsWithGt (pyStrip ('>' :: l)) = true ∧ pyStrip ('>' :: l) ≠ [] := by
  obtain ⟨t, ht⟩ := pyStrip_cons_of_not_space '>' l (by decide)
  rw [ht]
  exact ⟨rfl, by simp⟩

theorem splitLinesAux_cons (c : Char) (cs acc : List Char) :
    splitLinesAux (c :: cs) acc =
      if c = '\n' then (acc.reverse ++ ['\n']) :: splitLinesAux cs []
      else splitLinesAux cs (c :: acc) := rfl

theorem splitLinesAux_line (a : List Char) :
    ∀ (rest acc : List Char), '\n' ∉ a →
    splitLinesAux (a ++ '\n' :: rest) acc =
      (acc.reverse ++ (a ++ ['\n'])) :: splitLinesAux rest [] := by
  induction a with
  | nil =>
    intro rest acc _
    simp [splitLinesAux_cons]
  | cons c a' ih =>
    intro rest acc hnl
    have hc : ¬ c = '\n' := fun he => hnl (by simp [he])
    rw [List.cons_append, splitLinesAux_cons, if_neg hc]
    rw [ih rest (c :: acc) (fun hm => hnl (by simp [hm]))]
    simp

/-! ## Serialization and reparse of well-formed records -/

theorem to_fasta_none (k v : Str) :
    to_fasta k v none = '>' :: (k ++ '\n' :: (v ++ ['\n'])) := rfl

theorem to_fasta_none_length (k v : Str) :
    (to_fasta k v none).length = k.length + v.length + 3 := by
  simp [to_fasta_none]
  omega

theorem splitLines_encoded (pairs : List (Str × Str))
    (hwf : ∀ p ∈ pairs, WFrecord p) :
    splitLines ((pairs.map fun e => to_fasta e.1 e.2 none).flatten) =
      linesOf pairs := by
  induction pairs with
  | nil => rfl
  | cons e rest ih =>
    obtain ⟨k, v⟩ := e
    obtain ⟨hk1, hk2, hk3, hv1, hv2, hv3, hv4⟩ := hwf (k, v) (by simp)
    have hrw : ((((k, v) :: rest).map fun e => to_fasta e.1 e.2 none).flatten) =
        ('>' :: k) ++ '\n' ::
          (v ++ '\n' :: ((rest.map fun e => to_fasta e.1 e.2 none).flatten)) := by
      simp [to_fasta_none]
    unfold splitLines
    rw [hrw]
    rw [splitLinesAux_line ('>' :: k) _ []
      (by
        intro hm
        rcases List.mem_cons.mp hm with hh | hh
        · exact absurd hh (by decide)
        · exact hk2 hh)]
    rw [splitLinesAux_line v _ [] hv2]
    have hih := ih fun p hp => hwf p (by simp [hp])
    unfold splitLines at hih
    rw [hih]
    simp [linesOf]

theorem iterHPLines_cons (ln : List Char) (rest : List (List Char)) (pos : Nat) :
    iterHPLines (ln :: rest) pos =
      if startsWithGt ln then
        (pyStrip (removeGtMarker ln), pos) :: iterHPLines rest (pos + ln.length)
      else iterHPLines rest (pos + ln.length) := rfl

theorem startsWithGt_append_newline (v : Str) (h : startsWithGt v = false) :
    startsWithGt (v ++ ['\n']) = false := by
  cases v with
  | nil => decide
  | cons c t => exact h

theorem iterHPLines_linesOf (pairs : List (Str × Str))
    (hwf : ∀ p ∈ pairs, WFrecord p) :
    ∀ pos, iterHPLines (linesOf pairs) pos = recordPositions pairs pos := by
  induction pairs with
  | nil => intro pos; rfl
  | cons e rest ih =>
    obtain ⟨k, v⟩ := e
    obtain ⟨hk1, hk2, hk3, hv1, hv2, hv3, hv4⟩ := hwf (k, v) (by simp)
    intro pos
    show iterHPLines (('>' :: (k ++ ['\n'])) :: (v ++ ['\n']) :: linesOf rest)
        pos = _
    rw [iterHPLines_cons,
      if_pos (show startsWithGt ('>' :: (k ++ ['\n'])) = true from rfl)]
    rw [iterHPLines_cons,
      if_neg (by simp [startsWithGt_append_newline v hv4])]
    have hih := ih (fun p hp => hwf p (by simp [hp]))
    rw [hih]
    show ((pyStrip (k ++ ['\n']), pos) :: _) = _
    rw [pyStrip_append_newline k hk1]
    show _ = (k, pos) :: recordPositions rest (pos + (to_fasta k v none).length)
    have hlen : pos + ('>' :: (k ++ ['\n'])).length + (v ++ ['\n']).length =
        pos + (to_fasta k v none).length := by
      rw [to_fasta_none_length]
      simp
      omega
    rw [hlen]

theorem readSeqFromLines_cons (ln : List Char) (rest : List (List Char)) :
    readSeqFromLines (ln :: rest) =
      if pyStrip ln = [] ∨ startsWithGt (pyStrip ln) then []
      else pyStrip ln ++ readSeqFromLines rest := rfl

theorem readOneSeqFromLines_cons (ln : List Char) (rest : List (List Char)) :
    readOneSeqFromLines (ln :: rest) =
      (clean_header ln).map fun h => (h, readSeqFromLines rest) := rfl

theorem readSeqFromLines_linesOf_stop (pairs : List (Str × Str)) :
    readSeqFromLines (linesOf pairs) = [] := by
  cases pairs with
  | nil => rfl
  | cons e rest =>
    obtain ⟨k, v⟩ := e
    show readSeqFromLines (('>' :: (k ++ ['\n'])) :: _) = []
    obtain ⟨hgt, hne⟩ := pyStrip_marker_line_starts (k ++ ['\n'])
    rw [readSeqFromLines_cons, if_pos (Or.inr hgt)]

theorem readOneSeq_linesOf (k v : Str) (rest : List (Str × Str))
    (hk1 : pyStrip k = k) (hv1 : pyStrip v = v)
    (hv4 : startsWithGt v = false) :
    readOneSeqFromLines (linesOf ((k, v) :: rest)) = some (k, v) := by
  show readOneSeqFromLines
      (('>' :: (k ++ ['\n'])) :: (v ++ ['\n']) :: linesOf rest) = _
  rw [readOneSeqFromLines_cons, clean_header_marker_line k hk1]
  simp only [Option.map_some', Option.some.injEq, Prod.mk.injEq, true_and]
  rw [readSeqFromLines_cons, pyStrip_append_newline v hv1]
  by_cases hv : v = []
  · subst hv
    simp
  · rw [if_neg (by simp [hv, hv4])]
    rw [readSeqFromLines_linesOf_stop rest]
    simp

theorem buildIndexAux_nodup (l : List (Str × Nat)) :
    ∀ acc : List (Str × Nat), (∀ k ∈ l.map Prod.fst, lookupA acc k = none) →
    (l.map Prod.fst).Nodup → buildIndexAux l acc = acc ++ l := by
  induction l with
  | nil =>
    intro acc _ _
    simp [buildIndexAux]
  | cons e rest ih =>
    obtain ⟨h, p⟩ := e
    intro acc hfresh hnd
    have hl : lookupA acc h = none := hfresh h (by simp)
    have hnd0 : (h :: rest.map Prod.fst).Nodup := by simpa using hnd
    have hknotin : h ∉ rest.map Prod.fst := (List.nodup_cons.mp hnd0).1
    have hstep : buildIndexAux ((h, p) :: rest) acc =
        buildIndexAux rest (acc ++ [(h, p)]) := by
      simp [buildIndexAux, hl]
    rw [hstep]
    rw [ih (acc ++ [(h, p)])
      (by
        intro k hk
        rw [lookupA_append, hfresh k (by simp [hk])]
        have : ¬ k = h := fun he => hknotin (he ▸ hk)
        simp [lookupA, this])
      (List.nodup_cons.mp hnd0).2]
    simp

theorem recordPositions_keys (pairs : List (Str × Str)) :
    ∀ pos, (recordPositions pairs pos).map Prod.fst = pairs.map Prod.fst := by
  induction pairs with
  | nil => intro pos; rfl
  | cons e rest ih =>
    intro pos
    obtain ⟨k, v⟩ := e
    simp [recordPositions, ih]

theorem build_index_encoded (pairs : List (Str × Str))
    (hwf : ∀ p ∈ pairs, WFrecord p) (hnd : (pairs.map Prod.fst).Nodup) :
    build_index ((pairs.map fun e => to_fasta e.1 e.2 none).flatten) =
      recordPositions pairs 0 := by
  unfold build_index iter_header_positions
  rw [splitLines_encoded pairs hwf]
  rw [iterHPLines_linesOf pairs hwf 0]
  rw [buildIndexAux_nodup (recordPositions pairs 0) [] (fun k _ => rfl)
    (by rw [recordPositions_keys]; exact hnd)]
  simp

theorem mapM_read_encoded (full : List Char) :
    ∀ (pairs : List (Str × Str)) (pos : Nat),
    (∀ p ∈ pairs, WFrecord p) →
    full.drop pos = (pairs.map fun e => to_fasta e.1 e.2 none).flatten →
    (recordPositions pairs pos).mapM (fun e => read_one_sequence full e.2) =
      some pairs := by
  intro pairs
  induction pairs with
  | nil =>
    intro pos _ _
    rfl
  | cons e rest ih =>
    obtain ⟨k, v⟩ := e
    intro pos hwf hdrop
    obtain ⟨hk1, hk2, hk3, hv1, hv2, hv3, hv4⟩ := hwf (k, v) (by simp)
    have hwfrest : ∀ p ∈ rest, WFrecord p := fun p hp => hwf p (by simp [hp])
    have hread : read_one_sequence full pos = some (k, v) := by
      unfold read_one_sequence
      rw [hdrop, splitLines_encoded ((k, v) :: rest) hwf]
      exact readOneSeq_linesOf k v rest hk1 hv1 hv4
    have hdrop' : full.drop (pos + (to_fasta k v none).length) =
        (rest.map fun e => to_fasta e.1 e.2 none).flatten := by
      have h1 : full.drop (pos + (to_fasta k v none).length) =
          ((full.drop pos).drop (to_fasta k v none).length) := by
        rw [List.drop_drop]
      rw [h1, hdrop]
      have h2 : ((((k, v) :: rest).map fun e => to_fasta e.1 e.2 none).flatten) =
          to_fasta k v none ++ (rest.map fun e => to_fasta e.1 e.2 none).flatten := by
        simp
      rw [h2, List.drop_left]
    show List.mapM _
        ((k, pos) :: recordPositions rest (pos + (to_fasta k v none).length)) = _
    rw [List.mapM_cons]
    simp only []
    rw [show read_one_sequence full ((k : Str), pos).2 = some (k, v) from hread]
    rw [ih (pos + (to_fasta k v none).length) hwfrest hdrop']
    rfl

theorem fastaItems_encoded (pairs : List (Str × Str))
    (hwf : ∀ p ∈ pairs, WFrecord p) :
    fastaItems ((pairs.map fun e => to_fasta e.1 e.2 none).flatten)
      (recordPositions pairs 0) (initPending none) = some pairs := by
  show (((recordPositions pairs 0).filter fun e =>
      decide (e.1 ∉ headersOfUpdatedItems (initPending none))).mapM
        fun e => read_one_sequence
          ((pairs.map fun e => to_fasta e.1 e.2 none).flatten) e.2).map
      (· ++ (initPending none).updated) = some pairs
  have hfilter : ((recordPositions pairs 0).filter fun e =>
      decide (e.1 ∉ headersOfUpdatedItems (initPending none))) =
      recordPositions pairs 0 := by
    rw [List.filter_eq_self]
    intro a _
    simp [headersOfUpdatedItems, initPending]
  rw [hfilter]
  rw [mapM_read_encoded ((pairs.map fun e => to_fasta e.1 e.2 none).flatten)
    pairs 0 hwf (by simp)]
  simp [initPending]

theorem storeAll_fields (pairs : List (Str × Str)) :
    ∀ h : FastaHandle, storeAll pairs h =
      { h with st := pairs.foldl (fun s e => setItem s e.1 e.2) h.st } := by
  induction pairs with
  | nil => intro h; rfl
  | cons e rest ih =>
    intro h
    show storeAll rest { h with st := setItem h.st e.1 e.2 } = _
    rw [ih { h with st := setItem h.st e.1 e.2 }]
    rfl

/-! ## Claim C3 -/

/-- C3 counterexample: a single record whose header carries a trailing space
round-trips to a record with the stripped header, so the items() set of the
reopened storage differs from the original mapping. -/
theorem c3_counterexample :
    fastaRoundTrip c3CexPairs = some [((['A']), ['B'])] ∧
    ((['A', ' ']), (['B'] : Str)) ∉ [(((['A']) : Str), (['B'] : Str))] := by
  decide

/-- C3 amended: for every finite mapping of distinct well-formed headers to
well-formed sequences (no line breaks, no surrounding whitespace, sequence
not starting with the record marker), setting every pair on an empty
single-file storage, committing, reopening and listing items() returns
exactly the original pairs. -/
theorem c3_round_trip_wellformed (pairs : List (Str × Str))
    (hwf : ∀ p ∈ pairs, WFrecord p) (hnd : (pairs.map Prod.fst).Nodup) :
    fastaRoundTrip pairs = some pairs := by
  have hstore : storeAll pairs (fastaReopen []) =
      { wrap := none
        st := { cacheSize := none, cache := [], deleted := [],
                updated := pairs }
        file := []
        index := none } := by
    rw [storeAll_fields]
    have hst := foldSet_state pairs (initPending none) rfl rfl
      (fun k _ => rfl) hnd
    show ({ fastaReopen [] with
      st := pairs.foldl (fun s e => setItem s e.1 e.2) (initPending none) } :
        FastaHandle) = _
    rw [hst]
    rfl
  unfold fastaRoundTrip
  rw [hstore]
  by_cases hp : pairs = []
  · subst hp
    rfl
  · have hcommit : fastaCommit
        { wrap := none
          st := { cacheSize := none, cache := [], deleted := [],
                  updated := pairs }
          file := []
          index := none } =
        some { wrap := none
               st := { cacheSize := none, cache := [], deleted := [],
                       updated := pairs }
               file := (pairs.map fun e => to_fasta e.1 e.2 none).flatten
               index := none } := by
      unfold fastaCommit
      rw [if_neg (by simp [hp])]
      have hitems : fastaItemsH
          { wrap := none
            st := { cacheSize := none, cache := [], deleted := [],
                    updated := pairs }
            file := []
            index := none } = some pairs := rfl
      rw [hitems]
      rfl
    rw [hcommit]
    show fastaItems ((pairs.map fun e => to_fasta e.1 e.2 none).flatten)
      (build_index ((pairs.map fun e => to_fasta e.1 e.2 none).flatten))
      (initPending none) = some pairs
    rw [build_index_encoded pairs hwf hnd]
    exact fastaItems_encoded pairs hwf

/-- Witness for C3 amended at a concrete one-record mapping. -/
theorem c3_witness :
    fastaRoundTrip [((['A']), ['C'])] = some [((['A']), ['C'])] :=
  c3_round_trip_wellformed [((['A']), ['C'])] (by decide) (by decide)

/-! ## Claim C10 -/

set_option maxRecDepth 100000 in
/-- C10: with wrap 60, after set("A", "A" * 120) and commit, reopening the
storage and getting "A" returns exactly the 120-character string, while in
the committed on-disk content no physical sequence line exceeds 60
characters. -/
theorem c10_wrap_round_trip :
    (fastaCommit c10H1).isSome = true ∧
    (getItem (fastaGetFromSource c10File (build_index c10File))
        (initPending none) ['A']).result = some seqA120 ∧
    (∀ ln ∈ (splitLines c10File).drop 1, lineLenNoNL ln ≤ 60) := by
  decide

end SeqStorages
